import Mathlib

/-!
Shallow embedding of `src/scripts/fetch-realtime.js` (iKDx-realtime).

The file contains two variants of the same fetch script concatenated:
a legacy per-symbol version (`fetchWithRetry` / `processStock`) and the
batch version (`fetchBatchWithRetry` / `processBatchData`).  Raw quote
fields arrive as JSON strings, so every raw field is modelled as
`Option String` (`none` = absent / `null`).  JavaScript numbers are
modelled as exact rationals together with explicit `NaN` / `Infinity`
constructors; float rounding is not modelled because no claim compares
numeric results of two different parses.
-/

namespace FetchRealtime

/-- The value domain of JavaScript `Number(...)` as used in the script:
`NaN`, the two infinities, or a finite value (modelled exactly as `ℚ`). -/
inductive JSNum where
  | nan
  | posInf
  | negInf
  | fin (q : ℚ)
deriving DecidableEq, Repr

def JSNum.isNaN : JSNum → Bool
  | .nan => true
  | _ => false

def JSNum.isFinite : JSNum → Bool
  | .fin _ => true
  | _ => false

/-- Whitespace characters stripped by JS `ToNumber` on strings
(ASCII whitespace plus NBSP; other rare Unicode spaces are not used by
the quote feed). -/
def jsWhitespace (c : Char) : Bool :=
  c = ' ' ∨ c = '\t' ∨ c = '\n' ∨ c = '\r' ∨ c = '\x0b' ∨ c = '\x0c' ∨ c = '\xa0'

/-- Digit list to natural number, e.g. `['1','2'] ↦ 12`. -/
def digitsToNat (cs : List Char) : Nat :=
  cs.foldl (fun a c => a * 10 + (c.toNat - 48)) 0

/-- Value of one hexadecimal digit. -/
def hexDigitVal (c : Char) : Option Nat :=
  if '0' ≤ c ∧ c ≤ '9' then some (c.toNat - 48)
  else if 'a' ≤ c ∧ c ≤ 'f' then some (c.toNat - 87)
  else if 'A' ≤ c ∧ c ≤ 'F' then some (c.toNat - 55)
  else none

/-- Digits of a non-decimal integer literal (`0x…`, `0o…`, `0b…`). -/
def parseRadix (base : Nat) (ds : List Char) : Option Nat :=
  if ds = [] then none
  else
    ds.foldl
      (fun acc c =>
        match acc, hexDigitVal c with
        | some a, some v => if v < base then some (a * base + v) else none
        | _, _ => none)
      (some 0)

/-- Exponent part of a decimal literal: optional sign then digits. -/
def parseExp : List Char → Option Int
  | [] => none
  | '+' :: ds => if ds ≠ [] ∧ ds.all Char.isDigit then some (digitsToNat ds : Int) else none
  | '-' :: ds => if ds ≠ [] ∧ ds.all Char.isDigit then some (-(digitsToNat ds : Int)) else none
  | ds => if ds.all Char.isDigit then some (digitsToNat ds : Int) else none

/-- Unsigned decimal literal `digits [. digits] [e[±]digits]`, exact value. -/
def parseUnsignedDec (cs : List Char) : Option ℚ :=
  let ip := cs.takeWhile Char.isDigit
  let r1 := cs.dropWhile Char.isDigit
  let fp :=
    match r1 with
    | '.' :: rest => rest.takeWhile Char.isDigit
    | _ => []
  let r2 :=
    match r1 with
    | '.' :: rest => rest.dropWhile Char.isDigit
    | _ => r1
  if ip = [] ∧ fp = [] then none
  else
    let mant : ℚ := (digitsToNat ip : ℚ) + (digitsToNat fp : ℚ) / (10 : ℚ) ^ fp.length
    match r2 with
    | [] => some mant
    | 'e' :: rest => (parseExp rest).map (fun ex => mant * (10 : ℚ) ^ ex)
    | 'E' :: rest => (parseExp rest).map (fun ex => mant * (10 : ℚ) ^ ex)
    | _ => none

/-- Signed decimal literal or `Infinity`. -/
def decSigned (t : List Char) : JSNum :=
  let sgn : ℚ :=
    match t with
    | '+' :: _ => 1
    | '-' :: _ => -1
    | _ => 1
  let body : List Char :=
    match t with
    | '+' :: r => r
    | '-' :: r => r
    | r => r
  if body = "Infinity".data then (if sgn = 1 then .posInf else .negInf)
  else
    match parseUnsignedDec body with
    | some q => .fin (sgn * q)
    | none => .nan

/-- JS `Number(s)` for a string argument: trim whitespace; empty string is
`0`; `0x`/`0o`/`0b` literals; otherwise a signed decimal literal or
`Infinity`; anything else is `NaN`. -/
def strToNumber (s : String) : JSNum :=
  let t := ((s.data.dropWhile jsWhitespace).reverse.dropWhile jsWhitespace).reverse
  match t with
  | [] => .fin 0
  | '0' :: x :: rest =>
    if x = 'x' ∨ x = 'X' then
      match parseRadix 16 rest with
      | some n => .fin (n : ℚ)
      | none => .nan
    else if x = 'o' ∨ x = 'O' then
      match parseRadix 8 rest with
      | some n => .fin (n : ℚ)
      | none => .nan
    else if x = 'b' ∨ x = 'B' then
      match parseRadix 2 rest with
      | some n => .fin (n : ℚ)
      | none => .nan
    else decSigned t
  | _ => decSigned t

/-- A numeric slot of a canonical row: the provider placeholder `'-'`
(`miss`) or a parsed JS number (`parseValue` only produces non-`NaN`
numbers, but `Number`-produced infinities are kept, as in the script). -/
inductive Val where
  | miss
  | num (x : JSNum)
deriving DecidableEq, Repr

/-- `parseValue` from the script: `'-'`, `null`, `undefined` and `''`
become the placeholder `'-'`; otherwise `Number(val)`, with `NaN`
mapped back to `'-'`. -/
def parseValue (v : Option String) : Val :=
  match v with
  | none => .miss
  | some s =>
    if s = "-" ∨ s = "" then .miss
    else
      let n := strToNumber s
      if n.isNaN then .miss else .num n

/-- One raw quote record (`msgArray` element): every field a JSON string
or absent.  `c` = symbol code, `d` = date, `tlong` = epoch milliseconds,
`o`/`h`/`l`/`z`/`v` = open/high/low/trade price/volume. -/
structure RawQuote where
  c : Option String
  d : Option String
  tlong : Option String
  o : Option String
  h : Option String
  l : Option String
  z : Option String
  v : Option String
deriving DecidableEq, Repr

/-- JS truthiness of an `Option String` field: absent and `""` are falsy. -/
def truthy : Option String → Bool
  | none => false
  | some s => s ≠ ""

/-- `data.z && data.z !== '-' && !isNaN(Number(data.z))` — the validity
check used (identically) by `fetchWithRetry` and `fetchBatchWithRetry`. -/
def hasValidPrice (data : RawQuote) : Bool :=
  match data.z with
  | none => false
  | some s => decide (s ≠ "") && decide (s ≠ "-") && !(strToNumber s).isNaN

/-- Truncation toward zero (JS `ToIntegerOrInfinity` on a finite value). -/
def jsTrunc (q : ℚ) : Int :=
  if 0 ≤ q then q.floor else q.ceil

/-- Civil (proleptic Gregorian) date from days since the Unix epoch;
Howard Hinnant's `civil_from_days` algorithm, as used by every correct
epoch-to-UTC-date conversion (here: `Date.prototype.toISOString`). -/
def civilFromDays (days : Int) : Int × Int × Int :=
  let z := days + 719468
  let era := (if 0 ≤ z then z else z - 146096) / 146097
  let doe := z - era * 146097
  let yoe := (doe - doe / 1460 + doe / 36524 - doe / 146096) / 365
  let y := yoe + era * 400
  let doy := doe - (365 * yoe + yoe / 4 - yoe / 100)
  let mp := (5 * doy + 2) / 153
  let dd := doy - (153 * mp + 2) / 5 + 1
  let m := mp + (if mp < 10 then 3 else -9)
  (y + (if m ≤ 2 then 1 else 0), m, dd)

/-- Zero-padded decimal rendering of a natural number. -/
def padNat (n : Nat) (w : Nat) : String :=
  let s := toString n
  String.mk (List.replicate (w - s.length) '0') ++ s

/-- The date part of `toISOString()` for a time value of `ms`
milliseconds: `YYYY-MM-DD`, or `±YYYYYY-MM-DD` for expanded years. -/
def isoDatePrefix (ms : Int) : String :=
  let days := Int.ediv ms 86400000
  let ymd := civilFromDays days
  let y := ymd.1
  let m := ymd.2.1
  let dd := ymd.2.2
  let yearStr :=
    if 0 ≤ y ∧ y ≤ 9999 then padNat y.toNat 4
    else if 9999 < y then "+" ++ padNat y.toNat 6
    else "-" ++ padNat (-y).toNat 6
  yearStr ++ "-" ++ padNat m.toNat 2 ++ "-" ++ padNat dd.toNat 2

/-- The `tlong` branch of `parseDate`:
`new Date(Number(tlong)).toISOString().slice(0, 10)` with all dashes
then removed.  JS `TimeClip` makes the date invalid when `Number(tlong)` is `NaN`,
infinite, or out of the ±8.64e15 ms range, and `toISOString` then throws
a `RangeError` — modelled as `Except.error ()`. -/
def tlongToDate (s : String) : Except Unit String :=
  match strToNumber s with
  | .fin q =>
    if |q| > (8640000000000000 : ℚ) then .error ()
    else .ok (String.mk (((isoDatePrefix (jsTrunc q)).data.take 10).filter (fun c => c ≠ '-')))
  | _ => .error ()

/-- `formatDate` from the script: falsy input gives `null`; otherwise
strip all non-digit characters and keep the first 8 (the result may be
`''` or shorter than 8 digits — nothing re-checks the length). -/
def formatDate (dateStr : Option String) : Option String :=
  match dateStr with
  | none => none
  | some s =>
    if s = "" then none
    else some (String.mk ((s.data.filter Char.isDigit).take 8))

/-- The `includes('/')` fix-up of `parseDate`: drop every `/` separator
(a no-op when none is present, and skipped on falsy values, where it is
also a no-op). -/
def slashFix : Option String → Option String
  | none => none
  | some s =>
    if '/' ∈ s.data then some (String.mk (s.data.filter (fun c => c ≠ '/')))
    else some s

/-- Steps of `parseDate` before the final `formatDate`: take `data.d`
if truthy, otherwise derive from `data.tlong` (which can throw, see
`tlongToDate`); then drop `/` separators. -/
def dateRaw (data : RawQuote) : Except Unit (Option String) :=
  if truthy data.d then .ok (slashFix data.d)
  else if truthy data.tlong then
    match data.tlong with
    | some s =>
      match tlongToDate s with
      | .ok td => .ok (slashFix (some td))
      | .error e => .error e
    | none => .ok (slashFix data.d)
  else .ok (slashFix data.d)

/-- `parseDate` from the script, with the `RangeError` thrown by
`toISOString` on an invalid time value made explicit as `Except.error`. -/
def parseDateE (data : RawQuote) : Except Unit (Option String) :=
  match dateRaw data with
  | .error e => .error e
  | .ok td => .ok (formatDate td)

/-- A canonical daily row `[date, open, high, low, close, volume]`. -/
structure Row where
  date : String
  o : Val
  h : Val
  l : Val
  z : Val
  v : Val
deriving DecidableEq, Repr

/-- The five numeric slots of a row, in array order (indices 1–5). -/
def Row.slots (r : Row) : List Val :=
  [r.o, r.h, r.l, r.z, r.v]

abbrev Series := List Row

abbrev Store := String → Series

/-- The per-slot update lambda of `processBatchData` / `processStock`:
keep the existing value only when the new one is the placeholder and the
existing one is not; otherwise take the new value. -/
def resolve (e n : Val) : Val :=
  if n = Val.miss ∧ e ≠ Val.miss then e else n

/-- The same lambda applied at array index 0, where both values are the
(string) date; `todayDate` is all digits, so the `'-'` test never fires. -/
def resolveDate (e n : String) : String :=
  if n = "-" ∧ e ≠ "-" then e else n

/-- `newRow.map((val, idx) => ...)` against the existing row with the
same date: slotwise `resolve`, existing value first. -/
def mergeRow (e n : Row) : Row :=
  ⟨resolveDate e.date n.date, resolve e.o n.o, resolve e.h n.h,
   resolve e.l n.l, resolve e.z n.z, resolve e.v n.v⟩

/-- The reconciliation step of `processBatchData` / `processStock`:
`findIndex` the first row with the new row's date and replace it in
place with the merged row; if none exists, `push` the new row at the
end.  Written as structural recursion on the series. -/
def merge : Series → Row → Series
  | [], r => [r]
  | e :: rest, r =>
    if e.date = r.date then mergeRow e r :: rest
    else e :: merge rest r

/-- The new row built by `processBatchData` from a dated record. -/
def mkNewRow (todayDate : String) (data : RawQuote) : Row :=
  ⟨todayDate, parseValue data.o, parseValue data.h, parseValue data.l,
   parseValue data.z, parseValue data.v⟩

/-- One entry of the (filtered) stock list. -/
structure Stock where
  id : String
  name : String
  type : String
deriving DecidableEq, Repr

/-- `processBatchData`: for each stock of the batch in order, look up its
best record, skip if there is none or the date is falsy, otherwise merge
the new row into that stock's stored series and save it.  The store is
threaded through; the `Bool` is `true` when `parseDate` threw, in which
case the loop aborts with the writes made so far (per-stock `saveData`
already happened), mirroring the uncaught exception. -/
def processBatchData (best : String → Option RawQuote) : List Stock → Store → Store × Bool
  | [], store => (store, false)
  | stock :: rest, store =>
    match best stock.id with
    | none => processBatchData best rest store
    | some data =>
      match parseDateE data with
      | .error _ => (store, true)
      | .ok none => processBatchData best rest store
      | .ok (some td) =>
        if td = "" then processBatchData best rest store
        else
          processBatchData best rest
            (fun i => if i = stock.id then merge (store stock.id) (mkNewRow td data) else store i)

/-- Per-batch polling state: `bestDataMap` and `validStockIds`
(the JS `Set` modelled as a duplicate-free list). -/
structure BatchState where
  best : String → Option RawQuote
  valid : List String

/-- `Set.prototype.add`: append only if not already present. -/
def setAdd (l : List String) (x : String) : List String :=
  if x ∈ l then l else l ++ [x]

/-- Folding one returned record into the batch state (the body of the
`for (const data of dataArray)` loop): skip records with a falsy symbol
code; a valid-price record overwrites the best row unconditionally and
marks the symbol; an invalid one is stored only when no best row exists
yet. -/
def processRecord (st : BatchState) (data : RawQuote) : BatchState :=
  match data.c with
  | none => st
  | some sid =>
    if sid = "" then st
    else if hasValidPrice data then
      ⟨fun i => if i = sid then some data else st.best i, setAdd st.valid sid⟩
    else
      match st.best sid with
      | none => ⟨fun i => if i = sid then some data else st.best i, st.valid⟩
      | some _ => st

/-- One tick: fold every record of the response into the state. -/
def processTick (st : BatchState) (records : List RawQuote) : BatchState :=
  records.foldl processRecord st

/-- Initial batch state: every symbol maps to `null`, no valid ids. -/
def initBatchState : BatchState :=
  ⟨fun _ => none, []⟩

/-- The retry loop of `fetchBatchWithRetry`, over the trace of tick
responses (the list ends when the 30 s deadline would expire).  Returns
the final state, the number of ticks performed and the number of sleeps
taken; the loop breaks before sleeping as soon as
`validStockIds.size === stocks.length`. -/
def fetchBatchWithRetry (stocks : List Stock) : List (List RawQuote) → BatchState → BatchState × Nat × Nat
  | [], st => (st, 0, 0)
  | tick :: rest, st =>
    let st2 := processTick st tick
    if st2.valid.length = stocks.length then (st2, 1, 0)
    else
      let r := fetchBatchWithRetry stocks rest st2
      (r.1, r.2.1 + 1, r.2.2 + (if rest = [] then 0 else 1))

/-- The legacy per-symbol retry loop (`fetchWithRetry`), over the trace
of per-tick results (`none` = request failed).  A valid-price record is
returned immediately; otherwise the record overwrites `lastValidData`,
which is returned when the deadline (end of trace) is reached. -/
def fetchWithRetry : List (Option RawQuote) → Option RawQuote → Option RawQuote
  | [], lastValidData => lastValidData
  | t :: rest, lastValidData =>
    match t with
    | some data =>
      if hasValidPrice data then some data
      else fetchWithRetry rest (some data)
    | none => fetchWithRetry rest lastValidData

/-! ### Helper lemmas about the value-preference rule and `merge` -/

theorem resolve_self (v : Val) : resolve v v = v := by
  simp [resolve]

theorem resolveDate_self (s : String) : resolveDate s s = s := by
  simp [resolveDate]

theorem resolve_resolve (a b : Val) : resolve (resolve a b) b = resolve a b := by
  by_cases hc : b = Val.miss ∧ a ≠ Val.miss
  · have h1 : resolve a b = a := by rw [resolve, if_pos hc]
    rw [h1]
    exact h1
  · have h1 : resolve a b = b := by rw [resolve, if_neg hc]
    rw [h1]
    exact resolve_self b

theorem resolveDate_resolveDate (a b : String) :
    resolveDate (resolveDate a b) b = resolveDate a b := by
  by_cases hc : b = "-" ∧ a ≠ "-"
  · have h1 : resolveDate a b = a := by rw [resolveDate, if_pos hc]
    rw [h1]
    exact h1
  · have h1 : resolveDate a b = b := by rw [resolveDate, if_neg hc]
    rw [h1]
    exact resolveDate_self b

theorem mergeRow_self (r : Row) : mergeRow r r = r := by
  cases r
  simp [mergeRow, resolve_self, resolveDate_self]

theorem mergeRow_date (e r : Row) (h : e.date = r.date) : (mergeRow e r).date = r.date := by
  show resolveDate e.date r.date = r.date
  rw [h, resolveDate_self]

theorem mergeRow_mergeRow (e r : Row) : mergeRow (mergeRow e r) r = mergeRow e r := by
  cases e
  cases r
  simp [mergeRow, resolve_resolve, resolveDate_resolveDate]

theorem merge_first_match (pre post : List Row) (e r : Row)
    (hpre : ∀ x ∈ pre, x.date ≠ r.date) (he : e.date = r.date) :
    merge (pre ++ e :: post) r = pre ++ mergeRow e r :: post := by
  induction pre with
  | nil => simp [merge, he]
  | cons x xs ih =>
    have hx : x.date ≠ r.date := hpre x (by simp)
    simp only [List.cons_append, merge, if_neg hx, List.append_eq]
    rw [ih (fun y hy => hpre y (by simp [hy]))]

theorem mem_dates_merge (S : Series) (r : Row) (s : String)
    (h : s ∈ (merge S r).map Row.date) : s ∈ S.map Row.date ∨ s = r.date := by
  induction S with
  | nil =>
    simp [merge] at h
    simp [h]
  | cons e rest ih =>
    by_cases hc : e.date = r.date
    · simp only [merge, if_pos hc, List.map_cons, List.mem_cons] at h
      rcases h with h | h
      · right; rw [h, mergeRow_date e r hc]
      · left; simp [h]
    · simp only [merge, if_neg hc, List.map_cons, List.mem_cons] at h
      rcases h with h | h
      · left; simp [h]
      · rcases ih h with h2 | h2
        · left; simp [h2]
        · right; exact h2

theorem merge_nodup (S : Series) (r : Row) (h : (S.map Row.date).Nodup) :
    ((merge S r).map Row.date).Nodup := by
  induction S with
  | nil => simp [merge]
  | cons e rest ih =>
    simp only [List.map_cons, List.nodup_cons] at h
    by_cases hc : e.date = r.date
    · simp only [merge, if_pos hc, List.map_cons, List.nodup_cons, mergeRow_date e r hc]
      exact ⟨by rw [← hc]; exact h.1, h.2⟩
    · simp only [merge, if_neg hc, List.map_cons, List.nodup_cons]
      refine ⟨fun hmem => ?_, ih h.2⟩
      rcases mem_dates_merge rest r e.date hmem with h2 | h2
      · exact h.1 h2
      · exact hc h2

theorem foldl_merge_nodup (rs : List Row) :
    ∀ S : Series, (S.map Row.date).Nodup → ((rs.foldl merge S).map Row.date).Nodup := by
  induction rs with
  | nil => intro S h; simpa using h
  | cons r rest ih =>
    intro S h
    exact ih (merge S r) (merge_nodup S r h)

/-- Concrete existing row used by witnesses (the spec's §8 scenario). -/
def rowExisting : Row :=
  ⟨"20250101", .num (.fin 100), .num (.fin 105), .num (.fin 99), .num (.fin 104), .num (.fin 5000)⟩

/-- Concrete freshly fetched row used by witnesses: same date, close is
the placeholder, volume 6000. -/
def rowFetched : Row :=
  ⟨"20250101", .miss, .miss, .miss, .miss, .num (.fin 6000)⟩

/-! ### Claim theorems -/

/-- C1: when a row with the same date exists, the merge replaces the
first such row in place and resolves each of the 5 numeric slots
independently: the existing value is kept exactly when the new value is
Missing and the existing one is not, otherwise the new value is taken
(so a non-Missing new value always wins, Missing-over-Missing yields
Missing, and Missing never overwrites a known value); whenever the two
values are distinguishable the kept-existing outcome characterises that
condition exactly. -/
theorem c1_merge_resolve_law (pre post : List Row) (e r : Row)
    (hpre : ∀ x ∈ pre, x.date ≠ r.date) (he : e.date = r.date) :
    merge (pre ++ e :: post) r = pre ++ mergeRow e r :: post
    ∧ (mergeRow e r).slots = List.zipWith resolve e.slots r.slots
    ∧ (∀ a b : Val,
        (b = Val.miss ∧ a ≠ Val.miss → resolve a b = a)
        ∧ (¬(b = Val.miss ∧ a ≠ Val.miss) → resolve a b = b)
        ∧ (b ≠ Val.miss → resolve a b = b)
        ∧ (a ≠ Val.miss → resolve a b ≠ Val.miss)
        ∧ (a ≠ b → (resolve a b = a ↔ b = Val.miss ∧ a ≠ Val.miss)))
    ∧ resolve Val.miss Val.miss = Val.miss := by
  refine ⟨merge_first_match pre post e r hpre he, rfl, fun a b => ?_, by simp [resolve]⟩
  by_cases hc : b = Val.miss ∧ a ≠ Val.miss
  · refine ⟨fun _ => by rw [resolve, if_pos hc], fun hn => absurd hc hn,
      fun hb => absurd hc.1 hb, fun _ => by rw [resolve, if_pos hc]; exact hc.2, fun _ => ?_⟩
    rw [resolve, if_pos hc]
    simp [hc]
  · refine ⟨fun hp => absurd hp hc, fun _ => by rw [resolve, if_neg hc],
      fun _ => by rw [resolve, if_neg hc], fun ha hm => ?_, fun hab => ?_⟩
    · rw [resolve, if_neg hc] at hm
      exact hc ⟨hm, ha⟩
    · rw [resolve, if_neg hc]
      constructor
      · intro hba; exact absurd hba.symm hab
      · intro hcc; exact absurd hcc hc

/-- C1 witness: the law applied to the spec's §8 scenario rows. -/
theorem c1_merge_resolve_law_witness :
    merge ([] ++ rowExisting :: []) rowFetched = [] ++ mergeRow rowExisting rowFetched :: []
    ∧ (mergeRow rowExisting rowFetched).slots
        = List.zipWith resolve rowExisting.slots rowFetched.slots
    ∧ (∀ a b : Val,
        (b = Val.miss ∧ a ≠ Val.miss → resolve a b = a)
        ∧ (¬(b = Val.miss ∧ a ≠ Val.miss) → resolve a b = b)
        ∧ (b ≠ Val.miss → resolve a b = b)
        ∧ (a ≠ Val.miss → resolve a b ≠ Val.miss)
        ∧ (a ≠ b → (resolve a b = a ↔ b = Val.miss ∧ a ≠ Val.miss)))
    ∧ resolve Val.miss Val.miss = Val.miss :=
  c1_merge_resolve_law [] [] rowExisting rowFetched (by simp) rfl

/-- C5: merging the same canonical row into a series twice in a row
yields the same series as merging it once. -/
theorem c5_merge_idempotent (S : Series) (r : Row) :
    merge (merge S r) r = merge S r := by
  induction S with
  | nil =>
    show merge [r] r = [r]
    simp [merge, mergeRow_self]
  | cons e rest ih =>
    by_cases hc : e.date = r.date
    · simp only [merge, if_pos hc]
      rw [if_pos (mergeRow_date e r hc), mergeRow_mergeRow]
    · simp only [merge, if_neg hc]
      rw [ih]

/-- C6: merging any canonical row into a series with at most one row per
date preserves that invariant, and hence any sequence of merges starting
from the empty series yields a series with no two rows of equal date. -/
theorem c6_dedup_invariant :
    (∀ (S : Series) (r : Row), (S.map Row.date).Nodup → ((merge S r).map Row.date).Nodup)
    ∧ ∀ rs : List Row, ((rs.foldl merge []).map Row.date).Nodup :=
  ⟨merge_nodup, fun rs => foldl_merge_nodup rs [] (by simp)⟩

/-- C6 witness: the invariant applied to a concrete one-row series. -/
theorem c6_dedup_invariant_witness :
    ((merge [rowExisting] rowFetched).map Row.date).Nodup :=
  c6_dedup_invariant.1 [rowExisting] rowFetched (by simp)

/-! ### Store-level helper lemmas and concrete inputs -/

/-- Membership in a merged series: every row either was already there or
carries the merged row's date. -/
theorem mem_merge (S : Series) (r x : Row) (hx : x ∈ merge S r) :
    x ∈ S ∨ x.date = r.date := by
  induction S with
  | nil =>
    simp [merge] at hx
    simp [hx]
  | cons e rest ih =>
    by_cases hc : e.date = r.date
    · simp only [merge, if_pos hc, List.mem_cons] at hx
      rcases hx with hx | hx
      · right; rw [hx, mergeRow_date e r hc]
      · left; simp [hx]
    · simp only [merge, if_neg hc, List.mem_cons] at hx
      rcases hx with hx | hx
      · left; simp [hx]
      · rcases ih hx with h2 | h2
        · left; simp [h2]
        · right; exact h2

/-- Every date produced by `formatDate` is all digits and at most 8 long. -/
theorem formatDate_digits (o : Option String) (s : String) (h : formatDate o = some s) :
    (∀ c ∈ s.data, c.isDigit = true) ∧ s.length ≤ 8 := by
  cases o with
  | none => exact absurd h (by simp [formatDate])
  | some t =>
    by_cases ht : t = ""
    · rw [formatDate, if_pos ht] at h
      exact absurd h (by simp)
    · rw [formatDate, if_neg ht] at h
      have hs : s = String.mk ((t.data.filter Char.isDigit).take 8) := (Option.some.inj h).symm
      subst hs
      constructor
      · intro c hc
        have hc2 : c ∈ t.data.filter Char.isDigit := ((List.take_sublist _ _).subset) hc
        exact (List.mem_filter.mp hc2).2
      · show ((t.data.filter Char.isDigit).take 8).length ≤ 8
        rw [List.length_take]
        exact min_le_left _ _

/-- Every date accepted by `parseDate` is all digits and at most 8 long. -/
theorem parseDateE_digits (data : RawQuote) (s : String)
    (h : parseDateE data = Except.ok (some s)) :
    (∀ c ∈ s.data, c.isDigit = true) ∧ s.length ≤ 8 := by
  cases hdr : dateRaw data with
  | error e => rw [parseDateE, hdr] at h; exact absurd h (by simp)
  | ok td =>
    rw [parseDateE, hdr] at h
    exact formatDate_digits td s (Except.ok.inj h)

/-- `parseDate` throws only when the date field is falsy and the
timestamp field is truthy (and then fails to convert). -/
theorem parseDateE_error_source (data : RawQuote) (h : parseDateE data = Except.error ()) :
    truthy data.d = false ∧ truthy data.tlong = true := by
  have hdr : dateRaw data = Except.error () := by
    cases hd : dateRaw data with
    | error e => rfl
    | ok td => rw [parseDateE, hd] at h; exact absurd h (by simp)
  by_cases h1 : truthy data.d
  · rw [dateRaw, if_pos h1] at hdr
    exact absurd hdr (by simp)
  · by_cases h2 : truthy data.tlong
    · exact ⟨by simp [h1], by simp [h2]⟩
    · rw [dateRaw, if_neg h1, if_neg h2] at hdr
      exact absurd hdr (by simp)

/-- A symbol whose best-map entry is empty is never written: the store at
its id is unchanged by `processBatchData`, even when a later record makes
the loop abort. -/
theorem processBatchData_skip_store (best : String → Option RawQuote) (sid : String)
    (hb : best sid = none) :
    ∀ (stocks : List Stock) (store : Store),
      (processBatchData best stocks store).1 sid = store sid := by
  intro stocks
  induction stocks with
  | nil => intro store; rfl
  | cons stock rest ih =>
    intro store
    by_cases hid : sid = stock.id
    · have hbs : best stock.id = none := by rw [← hid]; exact hb
      simp only [processBatchData, hbs]
      exact ih store
    · cases hbs : best stock.id with
      | none =>
        simp only [processBatchData, hbs]
        exact ih store
      | some data =>
        simp only [processBatchData, hbs]
        cases hpd : parseDateE data with
        | error e => rfl
        | ok td =>
          cases td with
          | none => exact ih store
          | some s =>
            by_cases hs : s = ""
            · simp only [if_pos hs]
              exact ih store
            · simp only [if_neg hs]
              rw [ih _]
              simp [hid]

/-- Rows present after `processBatchData`: each one was already stored or
has a nonempty, all-digit date of at most 8 characters. -/
theorem processBatchData_rows (best : String → Option RawQuote) :
    ∀ (stocks : List Stock) (store : Store) (sid : String) (row : Row),
      row ∈ (processBatchData best stocks store).1 sid →
      row ∈ store sid
      ∨ (row.date ≠ "" ∧ (∀ c ∈ row.date.data, c.isDigit = true) ∧ row.date.length ≤ 8) := by
  intro stocks
  induction stocks with
  | nil =>
    intro store sid row h
    exact Or.inl h
  | cons stock rest ih =>
    intro store sid row h
    cases hbs : best stock.id with
    | none =>
      simp only [processBatchData, hbs] at h
      exact ih store sid row h
    | some data =>
      simp only [processBatchData, hbs] at h
      revert h
      cases hpd : parseDateE data with
      | error e =>
        intro h
        exact Or.inl h
      | ok td =>
        intro h
        cases td with
        | none =>
          dsimp only at h
          exact ih store sid row h
        | some s =>
          dsimp only at h
          by_cases hs : s = ""
          · rw [if_pos hs] at h
            exact ih store sid row h
          · rw [if_neg hs] at h
            rcases ih _ sid row h with h2 | h2
            · by_cases hid : sid = stock.id
              · rw [hid] at h2 ⊢
                simp only [if_pos rfl] at h2
                rcases mem_merge _ _ row h2 with h3 | h3
                · exact Or.inl h3
                · refine Or.inr ⟨?_, ?_, ?_⟩
                  · rw [h3]; exact hs
                  · rw [h3]; exact (parseDateE_digits data s hpd).1
                  · rw [h3]; exact (parseDateE_digits data s hpd).2
              · simp only [if_neg hid] at h2
                exact Or.inl h2
            · exact Or.inr h2

/-- Concrete whitelist entries used in counterexamples. -/
def stockTsmc : Stock := ⟨"2330", "2330", "twse"⟩

def stockHonHai : Stock := ⟨"2317", "2317", "twse"⟩

/-- A record with no date field and a truthy but non-numeric `tlong`:
`new Date(NaN).toISOString()` throws. -/
def recBadTlong : RawQuote :=
  ⟨some "2330", none, some "abc", none, none, none, some "100", some "5000"⟩

/-- A well-formed record for a second symbol of the same batch. -/
def recGood2317 : RawQuote :=
  ⟨some "2317", some "20250101", none, some "100", some "105", some "99", some "104", some "5000"⟩

/-- A placeholder-price record (valid date, close is the dash). -/
def recPlaceholder : RawQuote :=
  ⟨some "2330", some "20250101", none, none, none, none, some "-", some "6000"⟩

/-- A record whose date field has only six digits once separators go. -/
def recSlashDate : RawQuote :=
  ⟨some "2330", some "2025/1/5", none, some "100", none, none, some "104", some "5000"⟩

def bestC2 : String → Option RawQuote := fun i =>
  if i = "2330" then some recBadTlong
  else if i = "2317" then some recGood2317
  else none

def bestC4 : String → Option RawQuote := fun i =>
  if i = "2330" then some recSlashDate else none

/-- C2 (code bug): a record whose date cannot be derived (no date field,
truthy but non-numeric timestamp) does not merely get dropped — the
`toISOString` call throws, the batch loop aborts, and the sibling symbol
2317 of the same batch is never persisted; the uncaught exception makes
`main().catch` exit with a non-zero status. -/
theorem c2_unparsable_tlong_fatal :
    (processBatchData bestC2 [stockTsmc, stockHonHai] (fun _ => [])).2 = true
    ∧ (processBatchData bestC2 [stockTsmc, stockHonHai] (fun _ => [])).1 "2317" = [] :=
  ⟨rfl, rfl⟩

/-- C3 counterexample: a symbol for which no valid trade price was ever
observed during the batch (its only record has the placeholder close) is
not skipped — its persisted series changes from empty to a one-row
series. -/
theorem c3_counterexample :
    (fetchBatchWithRetry [stockTsmc] [[recPlaceholder]] initBatchState).1.valid = []
    ∧ (processBatchData (fetchBatchWithRetry [stockTsmc] [[recPlaceholder]] initBatchState).1.best
        [stockTsmc] (fun _ => [])).1 "2330" ≠ []
    ∧ ((processBatchData (fetchBatchWithRetry [stockTsmc] [[recPlaceholder]] initBatchState).1.best
        [stockTsmc] (fun _ => [])).1 "2330").map Row.date = ["20250101"] :=
  ⟨rfl, by decide, rfl⟩

/-- C3 (amended): only a symbol whose best-row entry is empty at the
deadline is skipped; its existing persisted series is left completely
unmodified (no write to its storage occurs). -/
theorem c3_no_best_row_untouched (stocks : List Stock) (best : String → Option RawQuote)
    (store : Store) (sid : String) (hb : best sid = none) :
    (processBatchData best stocks store).1 sid = store sid :=
  processBatchData_skip_store best sid hb stocks store

/-- C3 witness: a symbol with an empty best-row entry keeps its stored
series. -/
theorem c3_no_best_row_untouched_witness :
    (processBatchData (fun _ => none) [stockTsmc] (fun _ => [rowExisting])).1 "2330"
      = [rowExisting] :=
  c3_no_best_row_untouched [stockTsmc] (fun _ => none) (fun _ => [rowExisting]) "2330" rfl

/-- C4 counterexample: normalization is neither total nor exactly-8:
a bad timestamp record throws instead of yielding an undatable result,
and a date field with six digits yields a six-digit date that is
persisted. -/
theorem c4_counterexample :
    parseDateE recBadTlong = Except.error ()
    ∧ parseDateE recSlashDate = Except.ok (some "202515")
    ∧ "202515".length = 6
    ∧ ((processBatchData bestC4 [stockTsmc] (fun _ => [])).1 "2330").map Row.date
      = ["202515"] :=
  ⟨rfl, rfl, rfl, rfl⟩

/-- C4 (amended): date handling yields, for every record, either a date
string made only of digits with length at most 8 (not necessarily
exactly 8), or a falsy result which is discarded, or — when the date
field is falsy and the timestamp field is truthy but unusable — a thrown
`RangeError`; every row newly persisted has a nonempty all-digit date of
at most 8 characters. -/
theorem c4_normalization_amended :
    (∀ (data : RawQuote) (s : String), parseDateE data = Except.ok (some s) →
        (∀ c ∈ s.data, c.isDigit = true) ∧ s.length ≤ 8)
    ∧ (∀ data : RawQuote, parseDateE data = Except.error () →
        truthy data.d = false ∧ truthy data.tlong = true)
    ∧ (∀ (best : String → Option RawQuote) (stocks : List Stock) (store : Store)
        (sid : String) (row : Row), row ∈ (processBatchData best stocks store).1 sid →
        row ∈ store sid
        ∨ (row.date ≠ "" ∧ (∀ c ∈ row.date.data, c.isDigit = true) ∧ row.date.length ≤ 8)) :=
  ⟨parseDateE_digits, parseDateE_error_source,
    fun best stocks store sid row => processBatchData_rows best stocks store sid row⟩

/-- C4 witness: the amended guarantee evaluated on a concrete record. -/
theorem c4_normalization_amended_witness :
    (∀ c ∈ "20250101".data, c.isDigit = true) ∧ "20250101".length ≤ 8 :=
  c4_normalization_amended.1 recGood2317 "20250101" rfl

/-! ### Batch-poller helper lemmas -/

theorem bfalse_ne_true {b : Bool} (h : b = false) : ¬b = true := by
  rw [h]
  simp

theorem mem_setAdd (l : List String) (x y : String) :
    y ∈ setAdd l x ↔ y ∈ l ∨ y = x := by
  by_cases hx : x ∈ l
  · rw [setAdd, if_pos hx]
    constructor
    · exact Or.inl
    · rintro (h | h)
      · exact h
      · rw [h]; exact hx
  · rw [setAdd, if_neg hx]
    simp

theorem setAdd_nodup (l : List String) (x : String) (h : l.Nodup) :
    (setAdd l x).Nodup := by
  by_cases hx : x ∈ l
  · rw [setAdd, if_pos hx]; exact h
  · rw [setAdd, if_neg hx]
    refine List.Nodup.append h (by simp) ?_
    intro a ha hax
    rw [List.mem_singleton] at hax
    exact hx (hax ▸ ha)

/-- Which ids are marked valid after folding one record. -/
theorem processRecord_valid_mem (st : BatchState) (r : RawQuote) (id : String) :
    id ∈ (processRecord st r).valid ↔
      id ∈ st.valid ∨ (r.c = some id ∧ id ≠ "" ∧ hasValidPrice r = true) := by
  cases hc : r.c with
  | none =>
    simp only [processRecord, hc]
    constructor
    · exact Or.inl
    · rintro (h | ⟨h, -, -⟩)
      · exact h
      · exact absurd h (by simp)
  | some sid =>
    simp only [processRecord, hc]
    by_cases he : sid = ""
    · rw [if_pos he]
      constructor
      · exact Or.inl
      · rintro (h | ⟨h1, h2, -⟩)
        · exact h
        · cases Option.some.inj h1
          exact absurd he h2
    · rw [if_neg he]
      by_cases hv : hasValidPrice r = true
      · rw [if_pos hv]
        show id ∈ setAdd st.valid sid ↔ _
        rw [mem_setAdd]
        constructor
        · rintro (h | h)
          · exact Or.inl h
          · exact Or.inr ⟨by rw [h], by rw [h]; exact he, hv⟩
        · rintro (h | ⟨h1, -, -⟩)
          · exact Or.inl h
          · exact Or.inr (Option.some.inj h1).symm
      · rw [if_neg hv]
        cases hb : st.best sid
        · constructor
          · intro h
            exact Or.inl h
          · rintro (h | ⟨-, -, h3⟩)
            · exact h
            · exact absurd h3 hv
        · constructor
          · exact Or.inl
          · rintro (h | ⟨-, -, h3⟩)
            · exact h
            · exact absurd h3 hv

/-- Which ids are marked valid after folding a whole tick. -/
theorem processTick_valid_mem (records : List RawQuote) :
    ∀ (st : BatchState) (id : String),
      id ∈ (processTick st records).valid ↔
        id ∈ st.valid ∨ ∃ r ∈ records, r.c = some id ∧ id ≠ "" ∧ hasValidPrice r = true := by
  induction records with
  | nil =>
    intro st id
    simp [processTick]
  | cons r rest ih =>
    intro st id
    have h0 : processTick st (r :: rest) = processTick (processRecord st r) rest := rfl
    rw [h0, ih (processRecord st r) id, processRecord_valid_mem]
    constructor
    · rintro ((h | h) | ⟨r2, hr2, h2⟩)
      · exact Or.inl h
      · exact Or.inr ⟨r, by simp, h⟩
      · exact Or.inr ⟨r2, by simp [hr2], h2⟩
    · rintro (h | ⟨r2, hr2, h2⟩)
      · exact Or.inl (Or.inl h)
      · rcases List.mem_cons.mp hr2 with h3 | h3
        · exact Or.inl (Or.inr (h3 ▸ h2))
        · exact Or.inr ⟨r2, h3, h2⟩

theorem processRecord_valid_nodup (st : BatchState) (r : RawQuote)
    (h : st.valid.Nodup) : (processRecord st r).valid.Nodup := by
  cases hc : r.c with
  | none => simpa [processRecord, hc] using h
  | some sid =>
    simp only [processRecord, hc]
    by_cases he : sid = ""
    · rw [if_pos he]; exact h
    · rw [if_neg he]
      by_cases hv : hasValidPrice r = true
      · rw [if_pos hv]
        exact setAdd_nodup _ _ h
      · rw [if_neg hv]
        cases hb : st.best sid
        · exact h
        · exact h

theorem processTick_valid_nodup (records : List RawQuote) :
    ∀ st : BatchState, st.valid.Nodup → (processTick st records).valid.Nodup := by
  induction records with
  | nil => intro st h; exact h
  | cons r rest ih =>
    intro st h
    exact ih (processRecord st r) (processRecord_valid_nodup st r h)

/-- A best row that already holds a valid price stays a valid-price row
through any further records of a tick. -/
theorem processTick_best_valid (records : List RawQuote) :
    ∀ (st : BatchState) (sid : String) (d0 : RawQuote),
      st.best sid = some d0 → hasValidPrice d0 = true →
      ∃ d1, (processTick st records).best sid = some d1 ∧ hasValidPrice d1 = true := by
  induction records with
  | nil =>
    intro st sid d0 h hv
    exact ⟨d0, h, hv⟩
  | cons r rest ih =>
    intro st sid d0 h hv
    cases hc : r.c with
    | none =>
      refine ih (processRecord st r) sid d0 ?_ hv
      simp only [processRecord, hc]
      exact h
    | some id2 =>
      by_cases he : id2 = ""
      · refine ih (processRecord st r) sid d0 ?_ hv
        simp only [processRecord, hc, if_pos he]
        exact h
      · by_cases hvr : hasValidPrice r = true
        · by_cases hid : sid = id2
          · refine ih (processRecord st r) sid r ?_ hvr
            simp only [processRecord, hc, if_neg he, if_pos hvr]
            simp [hid]
          · refine ih (processRecord st r) sid d0 ?_ hv
            simp only [processRecord, hc, if_neg he, if_pos hvr]
            simpa [hid] using h
        · by_cases hid : sid = id2
          · have hb : st.best id2 = some d0 := by rw [← hid]; exact h
            refine ih (processRecord st r) sid d0 ?_ hv
            simp only [processRecord, hc, if_neg he, if_neg hvr, hb]
            exact h
          · refine ih (processRecord st r) sid d0 ?_ hv
            simp only [processRecord, hc, if_neg he, if_neg hvr]
            cases hb : st.best id2
            · simpa [hid] using h
            · exact h

/-- An invalid-price record never changes the valid set. -/
theorem processRecord_invalid_valid (st : BatchState) (r : RawQuote)
    (hv : hasValidPrice r = false) : (processRecord st r).valid = st.valid := by
  cases hc : r.c with
  | none => simp [processRecord, hc]
  | some sid =>
    simp only [processRecord, hc]
    by_cases he : sid = ""
    · rw [if_pos he]
    · rw [if_neg he, if_neg (by simp [hv])]
      cases hb : st.best sid
      · rfl
      · rfl

/-- Once a best row is present, further invalid-price records leave it
unchanged. -/
theorem processTick_keep (records : List RawQuote) :
    ∀ (st : BatchState) (sid : String) (x : RawQuote),
      st.best sid = some x → (∀ r ∈ records, hasValidPrice r = false) →
      (processTick st records).best sid = some x := by
  induction records with
  | nil =>
    intro st sid x h _
    exact h
  | cons r rest ih =>
    intro st sid x h hall
    refine ih (processRecord st r) sid x ?_ (fun r2 h2 => hall r2 (by simp [h2]))
    have hv : hasValidPrice r = false := hall r (by simp)
    cases hc : r.c with
    | none => simpa [processRecord, hc] using h
    | some id2 =>
      simp only [processRecord, hc]
      by_cases he : id2 = ""
      · rw [if_pos he]; exact h
      · rw [if_neg he, if_neg (by simp [hv])]
        cases hb : st.best id2 with
        | none =>
          have hid : sid ≠ id2 := fun hEq => by
            rw [hEq, hb] at h
            exact Option.noConfusion h
          simpa [hid] using h
        | some _ => exact h

/-- The legacy loop on an all-invalid trace yields the last observed
record (each placeholder overwrites `lastValidData`). -/
theorem fetchWithRetry_lastData (ticks : List RawQuote)
    (hall : ∀ r ∈ ticks, hasValidPrice r = false) :
    ∀ acc : Option RawQuote, fetchWithRetry (ticks.map some) acc = (ticks.getLast?).or acc := by
  induction ticks with
  | nil => intro acc; rfl
  | cons r rest ih =>
    intro acc
    have hv : hasValidPrice r = false := hall r (by simp)
    have h0 : fetchWithRetry ((r :: rest).map some) acc
        = fetchWithRetry (rest.map some) (some r) := by
      simp only [List.map_cons, fetchWithRetry]
      rw [if_neg (by simp [hv])]
    rw [h0, ih (fun r2 h2 => hall r2 (by simp [h2])) (some r)]
    cases rest with
    | nil => rfl
    | cons x xs =>
      rw [List.getLast?_cons_cons]
      have h1 : ((x :: xs).getLast?).isSome := by
        rw [List.getLast?_isSome]
        simp
      rcases Option.isSome_iff_exists.mp h1 with ⟨y, hy⟩
      rw [hy]
      rfl

/-- The batch loop over single-record all-invalid ticks never exits early
and just folds every record into the state. -/
theorem fetchBatch_invalid_single (stk : Stock) (recs : List RawQuote)
    (hall : ∀ r ∈ recs, hasValidPrice r = false) :
    ∀ st : BatchState, st.valid = [] →
      (fetchBatchWithRetry [stk] (recs.map (fun r => [r])) st).1
        = List.foldl processRecord st recs := by
  induction recs with
  | nil => intro st _; rfl
  | cons r rest ih =>
    intro st h
    have hv : hasValidPrice r = false := hall r (by simp)
    have hval : (processTick st [r]).valid = st.valid := processRecord_invalid_valid st r hv
    have hc : ¬((processTick st [r]).valid.length = ([stk] : List Stock).length) := by
      rw [hval, h]
      simp
    simp only [List.map_cons, fetchBatchWithRetry]
    rw [if_neg hc]
    exact ih (fun r2 h2 => hall r2 (by simp [h2])) (processTick st [r]) (by rw [hval, h])

/-- Folding all-invalid records of one symbol from the initial state
retains the first record. -/
theorem batch_first_placeholder (recs : List RawQuote) (sid : String)
    (hall : ∀ r ∈ recs, hasValidPrice r = false ∧ r.c = some sid) (hsid : sid ≠ "") :
    (List.foldl processRecord initBatchState recs).best sid = recs.head? := by
  cases recs with
  | nil => rfl
  | cons r rest =>
    have hv := (hall r (by simp)).1
    have hcr := (hall r (by simp)).2
    have h1 : (processRecord initBatchState r).best sid = some r := by
      simp only [processRecord, hcr, if_neg hsid, if_neg (bfalse_ne_true hv)]
      simp [initBatchState]
    exact processTick_keep rest (processRecord initBatchState r) sid r h1
      (fun r2 hr2 => (hall r2 (by simp [hr2])).1)

/-- A valid-price record for symbol 2330 (trade price 104). -/
def recValid2330 : RawQuote :=
  ⟨some "2330", some "20250101", none, none, none, none, some "104", some "5000"⟩

/-- A second placeholder record for 2330, differing in volume. -/
def recPlaceholder2 : RawQuote :=
  ⟨some "2330", some "20250101", none, none, none, none, some "-", some "200"⟩

/-- A record whose close field is the literal `Infinity`. -/
def recInfinity : RawQuote :=
  ⟨some "2330", some "20250101", none, none, none, none, some "Infinity", none⟩

/-- A record whose close field is the empty string. -/
def recEmptyClose : RawQuote :=
  ⟨some "2330", some "20250101", none, none, none, none, some "", none⟩

/-- C7: during a batch run, a tick record with a valid price overwrites
the symbol's best row unconditionally and marks the symbol satisfied; an
invalid record is stored only when no best row exists yet; therefore a
stored best row — in particular one with a valid price — is never
replaced by a placeholder, and a valid-price best row stays valid-priced
through any further records. -/
theorem c7_best_row_policy (st : BatchState) (data : RawQuote) (sid : String)
    (hc : data.c = some sid) (hne : sid ≠ "") :
    (hasValidPrice data = true →
      (processRecord st data).best sid = some data
        ∧ sid ∈ (processRecord st data).valid)
    ∧ (hasValidPrice data = false →
      (processRecord st data).best sid = some ((st.best sid).getD data))
    ∧ (∀ d0 : RawQuote, st.best sid = some d0 → hasValidPrice data = false →
      (processRecord st data).best sid = some d0)
    ∧ (∀ (records : List RawQuote) (st0 : BatchState) (d0 : RawQuote),
      st0.best sid = some d0 → hasValidPrice d0 = true →
      ∃ d1, (processTick st0 records).best sid = some d1 ∧ hasValidPrice d1 = true) := by
  refine ⟨?_, ?_, ?_,
    fun records st0 d0 h hv => processTick_best_valid records st0 sid d0 h hv⟩
  · intro hv
    simp only [processRecord, hc, if_neg hne, if_pos hv]
    exact ⟨by simp, (mem_setAdd _ _ _).mpr (Or.inr rfl)⟩
  · intro hv
    simp only [processRecord, hc, if_neg hne, if_neg (bfalse_ne_true hv)]
    cases hb : st.best sid
    · simp
    · exact hb
  · intro d0 hb hv
    simp only [processRecord, hc]
    rw [if_neg hne, if_neg (bfalse_ne_true hv), hb]
    exact hb

/-- C7 witness: a concrete valid-price record overwrites the empty best
row and marks 2317 satisfied. -/
theorem c7_best_row_policy_witness :
    (processRecord initBatchState recGood2317).best "2317" = some recGood2317
      ∧ "2317" ∈ (processRecord initBatchState recGood2317).valid :=
  (c7_best_row_policy initBatchState recGood2317 "2317" rfl (by decide)).1 rfl

/-- C8 counterexample: `Infinity` is accepted as a valid trade price even
though it does not parse to a finite number, while the empty close field
is invalid even though JS `Number('')` is the finite 0 — so "valid iff
the close field parses to a finite number" fails in both directions. -/
theorem c8_counterexample :
    hasValidPrice recInfinity = true
    ∧ (strToNumber "Infinity").isFinite = false
    ∧ hasValidPrice recEmptyClose = false
    ∧ strToNumber "" = JSNum.fin 0
    ∧ (JSNum.fin 0).isFinite = true :=
  ⟨rfl, rfl, rfl, rfl, rfl⟩

/-- C8 (amended): a record carries a valid trade price iff its close
field is present, nonempty, not the placeholder dash, and `Number`-parses
to a non-`NaN` value; every finite parse of such a field is valid and
dash/empty/unparsable values are invalid, but non-finite infinities are
also accepted. -/
theorem c8_valid_price_amended :
    (∀ (data : RawQuote) (s : String), data.z = some s → s ≠ "" → s ≠ "-" →
      (strToNumber s).isFinite = true → hasValidPrice data = true)
    ∧ (∀ (data : RawQuote) (s : String), data.z = some s → strToNumber s = JSNum.nan →
      hasValidPrice data = false)
    ∧ (∀ data : RawQuote, data.z = none ∨ data.z = some "-" ∨ data.z = some "" →
      hasValidPrice data = false)
    ∧ (∀ (data : RawQuote) (s : String), data.z = some s → hasValidPrice data = true →
      s ≠ "" ∧ s ≠ "-" ∧ (strToNumber s).isNaN = false) := by
  refine ⟨?_, ?_, ?_, ?_⟩
  · intro data s hz h1 h2 hf
    have hn : (strToNumber s).isNaN = false := by
      cases h : strToNumber s
      · rw [h] at hf
        exact absurd hf (by simp [JSNum.isFinite])
      · rfl
      · rfl
      · rfl
    simp [hasValidPrice, hz, h1, h2, hn]
  · intro data s hz hnan
    simp [hasValidPrice, hz, hnan, JSNum.isNaN]
  · intro data h
    rcases h with h | h | h <;> simp [hasValidPrice, h]
  · intro data s hz hv
    simp only [hasValidPrice, hz, Bool.and_eq_true, Bool.not_eq_true',
      decide_eq_true_eq] at hv
    exact ⟨hv.1.1, hv.1.2, hv.2⟩

/-- C8 witness: the close field `104` is a valid trade price. -/
theorem c8_valid_price_amended_witness : hasValidPrice recGood2317 = true :=
  c8_valid_price_amended.1 recGood2317 "104" rfl (by decide) (by decide) rfl

/-- C9: when the first tick's response lies within the batch and yields a
valid-price record for every batch symbol, the poller performs exactly
one tick: it returns the state folded from that single tick, with tick
count 1 and no sleep, without consuming the rest of the deadline. -/
theorem c9_early_exit (stocks : List Stock) (tick1 : List RawQuote)
    (rest : List (List RawQuote))
    (hnd : (stocks.map Stock.id).Nodup)
    (hids : ∀ s ∈ stocks, s.id ≠ "")
    (hin : ∀ r ∈ tick1, ∀ sid, r.c = some sid → sid ≠ "" → hasValidPrice r = true →
      sid ∈ stocks.map Stock.id)
    (hall : ∀ s ∈ stocks, ∃ r ∈ tick1, r.c = some s.id ∧ hasValidPrice r = true) :
    fetchBatchWithRetry stocks (tick1 :: rest) initBatchState
      = (processTick initBatchState tick1, 1, 0) := by
  have hmem : ∀ id, id ∈ (processTick initBatchState tick1).valid
      ↔ id ∈ stocks.map Stock.id := by
    intro id
    rw [processTick_valid_mem]
    constructor
    · rintro (h | ⟨r, hr, h1, h2, h3⟩)
      · exact absurd h (by simp [initBatchState])
      · exact hin r hr id h1 h2 h3
    · intro h
      rcases List.mem_map.mp h with ⟨s, hs, rfl⟩
      rcases hall s hs with ⟨r, hr, h1, h2⟩
      exact Or.inr ⟨r, hr, h1, hids s hs, h2⟩
  have hnd2 : (processTick initBatchState tick1).valid.Nodup :=
    processTick_valid_nodup tick1 initBatchState (by simp [initBatchState])
  have hperm : (processTick initBatchState tick1).valid.Perm (stocks.map Stock.id) :=
    (List.perm_ext_iff_of_nodup hnd2 hnd).mpr hmem
  have hlen : (processTick initBatchState tick1).valid.length = stocks.length := by
    rw [hperm.length_eq, List.length_map]
  simp only [fetchBatchWithRetry]
  rw [if_pos hlen]

/-- C9 witness: a one-symbol batch satisfied on the first tick stops
after exactly one tick with no sleep. -/
theorem c9_early_exit_witness :
    fetchBatchWithRetry [stockTsmc] [[recValid2330]] initBatchState
      = (processTick initBatchState [recValid2330], 1, 0) :=
  c9_early_exit [stockTsmc] [recValid2330] [] (by decide) (by decide)
    (by
      intro r hr sid h1 _ _
      rcases List.mem_singleton.mp hr with rfl
      cases Option.some.inj h1
      simp [stockTsmc])
    (by
      intro s hs
      rcases List.mem_singleton.mp hs with rfl
      exact ⟨recValid2330, by simp, rfl, rfl⟩)

/-- C10: on tick traces yielding only invalid-price records for a symbol,
the legacy `fetchWithRetry` returns the most recently observed record
while the batch `fetchBatchWithRetry` retains the first observed record;
on a concrete trace of two distinct placeholder records the two loops
return different rows for the same symbol. -/
theorem c10_retry_divergence :
    (∀ ticks : List RawQuote, (∀ r ∈ ticks, hasValidPrice r = false) →
      fetchWithRetry (ticks.map some) none = ticks.getLast?)
    ∧ (∀ (recs : List RawQuote) (stk : Stock), stk.id ≠ "" →
      (∀ r ∈ recs, hasValidPrice r = false ∧ r.c = some stk.id) →
      (fetchBatchWithRetry [stk] (recs.map (fun r => [r])) initBatchState).1.best stk.id
        = recs.head?)
    ∧ fetchWithRetry [some recPlaceholder, some recPlaceholder2] none = some recPlaceholder2
    ∧ (fetchBatchWithRetry [stockTsmc] [[recPlaceholder], [recPlaceholder2]]
        initBatchState).1.best "2330" = some recPlaceholder
    ∧ recPlaceholder ≠ recPlaceholder2 := by
  refine ⟨?_, ?_, rfl, rfl, by decide⟩
  · intro ticks hall
    rw [fetchWithRetry_lastData ticks hall none]
    cases h : ticks.getLast? <;> rfl
  · intro recs stk hsid hall
    rw [fetchBatch_invalid_single stk recs (fun r hr => (hall r hr).1) initBatchState rfl]
    exact batch_first_placeholder recs stk.id hall hsid

/-- C10 witness: the legacy loop on a one-record all-invalid trace
returns that record. -/
theorem c10_retry_divergence_witness :
    fetchWithRetry ([recPlaceholder].map some) none = [recPlaceholder].getLast? :=
  c10_retry_divergence.1 [recPlaceholder]
    (by
      intro r hr
      rcases List.mem_singleton.mp hr with rfl
      rfl)

end FetchRealtime
